import Mathlib

/-!
Verification of the TuberCheck response-normalization pipeline (src/app.py).

The repository is a small Flask application. Its core logic is the inline
text pipeline of `analyze_tuber` (lines 120-145 of app.py), which strips
HTML-like tags, extracts a `[VERDICT: ...] [CONFIDENCE: ...%]` line with a
regex, removes it from the body, applies several cleanup substitutions and
collapses newline runs; plus the image preprocessing helper
`optimize_image` (lines 36-49), the request orchestration of
`analyze_tuber` (lines 67-160) and the `results` route (lines 163-177).

Strings are embedded as `List Char`. Each Python `re` operation is
embedded as an executable function reproducing the exact backtracking
semantics of the concrete pattern used by the source (left-to-right scan,
non-overlapping matches, lazy and greedy quantifier behaviour for these
specific patterns). Functions whose recursion is not structural are
written with an explicit fuel argument equal to the input length; every
recursive call consumes at least one character, so the fuel never runs
out on the wrapper entry points.
-/

namespace TuberCheck

/-- Whitespace set used by Python for both the regex class matched by
a whitespace metacharacter and for `str.strip()`: the six ASCII
whitespace characters plus the common Unicode whitespace code points. -/
def wsChars : List Char :=
  [' ', '\t', '\n', '\r', Char.ofNat 0x0B, Char.ofNat 0x0C,
   Char.ofNat 0x1C, Char.ofNat 0x1D, Char.ofNat 0x1E, Char.ofNat 0x1F,
   Char.ofNat 0x85, Char.ofNat 0xA0, Char.ofNat 0x1680,
   Char.ofNat 0x2000, Char.ofNat 0x2001, Char.ofNat 0x2002,
   Char.ofNat 0x2003, Char.ofNat 0x2004, Char.ofNat 0x2005,
   Char.ofNat 0x2006, Char.ofNat 0x2007, Char.ofNat 0x2008,
   Char.ofNat 0x2009, Char.ofNat 0x200A, Char.ofNat 0x2028,
   Char.ofNat 0x2029, Char.ofNat 0x202F, Char.ofNat 0x205F,
   Char.ofNat 0x3000]

/-- Decidable whitespace test (Python `\s` / `str.isspace`). -/
def isSpace (c : Char) : Bool := wsChars.contains c

/-- Drop the longest all-`p` suffix of a list (used to embed the
right-hand side of Python `str.strip()`). -/
def dropEndWhile (p : Char → Bool) : List Char → List Char
  | [] => []
  | c :: t =>
    let r := dropEndWhile p t
    if r.isEmpty && p c then [] else c :: r

/-- Embedding of Python `str.strip()`: remove leading and trailing
whitespace. -/
def pyStrip (l : List Char) : List Char :=
  dropEndWhile isSpace (l.dropWhile isSpace)

/-- Fuel-indexed embedding of `re.sub(r'<[^>]+>', '', s)` from app.py
line 122. At a `<` the greedy class `[^>]+` runs to the first later `>`;
the match succeeds when at least one character stands between them, and
scanning resumes after the `>`. On failure scanning advances one
character. -/
def stripTagsF : Nat → List Char → List Char
  | 0, _ => []
  | _ + 1, [] => []
  | fuel + 1, c :: t =>
    if c = '<' then
      let pre := t.takeWhile (fun d => decide (d ≠ '>'))
      let post := t.dropWhile (fun d => decide (d ≠ '>'))
      if pre.isEmpty || post.isEmpty then c :: stripTagsF fuel t
      else stripTagsF fuel (post.drop 1)
    else c :: stripTagsF fuel t

/-- Tag stripping, app.py line 122. -/
def stripTags (l : List Char) : List Char := stripTagsF l.length l

/-- Does the list begin with a substring matching `<[^>]+>`
(a `<`, then at least one non-`>` character, then a `>`)? -/
def startsWithTag : List Char → Bool
  | [] => false
  | c :: t =>
    decide (c = '<') && !(t.takeWhile (fun d => decide (d ≠ '>'))).isEmpty
      && !(t.dropWhile (fun d => decide (d ≠ '>'))).isEmpty

/-- Does the list contain a substring matching `<[^>]+>` anywhere? -/
def hasTag : List Char → Bool
  | [] => false
  | c :: t => startsWithTag (c :: t) || hasTag t

/-- Relation: the second list is the first with some disjoint
substrings deleted, each deleted substring matching `<[^>]+>`. -/
inductive TagDeleted : List Char → List Char → Prop
  | nil : TagDeleted [] []
  | keep (c : Char) (s t : List Char) : TagDeleted s t → TagDeleted (c :: s) (c :: t)
  | del (mid s t : List Char) : mid ≠ [] → (∀ c ∈ mid, c ≠ '>') →
      TagDeleted s t → TagDeleted ('<' :: mid ++ '>' :: s) t

/-- Literal `[VERDICT:` opening the verdict regex of app.py line 125. -/
def verdLit : List Char := "[VERDICT:".toList

/-- Literal `[CONFIDENCE:` of the verdict regex. -/
def confLit : List Char := "[CONFIDENCE:".toList

/-- Lazy scan embedding `.*?%\]` (DOTALL): split the list at the first
occurrence of `%]`, returning the consumed part and the remainder after
the `%]`. -/
def findPctBracket : List Char → Option (List Char × List Char)
  | [] => none
  | c :: t =>
    if ("%]".toList).isPrefixOf (c :: t) then some ([], (c :: t).drop 2)
    else (findPctBracket t).map (fun br => (c :: br.1, br.2))

/-- After a candidate `]`, try `\s*\[CONFIDENCE:.*?%\]`: the whitespace
run must be immediately followed by the `[CONFIDENCE:` literal (the `[`
is not whitespace, so backtracking over the greedy run adds nothing),
then a lazy scan to the first `%]`. Returns the matched characters after
the `]` and the rest of the input. -/
def tryConf (t : List Char) : Option (List Char × List Char) :=
  let w := t.takeWhile isSpace
  let t2 := t.dropWhile isSpace
  if confLit.isPrefixOf t2 then
    (findPctBracket (t2.drop confLit.length)).map
      (fun br => (w ++ confLit ++ br.1 ++ "%]".toList, br.2))
  else none

/-- Embedding of the part of the verdict regex after the `[VERDICT:`
literal: lazy `.*?` (DOTALL) up to the first `]` from which
`\s*\[CONFIDENCE:.*?%\]` completes; a failing `]` is absorbed into the
lazy part and the scan continues. Returns the matched characters and the
rest of the input. -/
def matchTail : List Char → Option (List Char × List Char)
  | [] => none
  | c :: t =>
    match (if c = ']' then tryConf t else none) with
    | some mr => some (']' :: mr.1, mr.2)
    | none => (matchTail t).map (fun mr => (c :: mr.1, mr.2))

/-- Attempt to match the full verdict regex
`\[VERDICT:.*?\]\s*\[CONFIDENCE:.*?%\]` (DOTALL) at the head of the
list. Returns the matched substring and the rest of the input. -/
def matchVerdictAt (l : List Char) : Option (List Char × List Char) :=
  if verdLit.isPrefixOf l then
    (matchTail (l.drop verdLit.length)).map (fun mr => (verdLit ++ mr.1, mr.2))
  else none

/-- Embedding of `re.search` for the verdict regex, app.py line 125:
leftmost match, returned as the decomposition (prefix, match, rest). -/
def searchVerdict : List Char → Option (List Char × List Char × List Char)
  | [] => none
  | c :: t =>
    match matchVerdictAt (c :: t) with
    | some mr => some ([], mr.1, mr.2)
    | none => (searchVerdict t).map (fun pmr => (c :: pmr.1, pmr.2.1, pmr.2.2))

/-- Fuel-indexed embedding of `re.sub` with the verdict regex and empty
replacement, app.py line 129: remove every left-to-right non-overlapping
match. -/
def subVerdictF : Nat → List Char → List Char
  | 0, _ => []
  | _ + 1, [] => []
  | fuel + 1, c :: t =>
    match matchVerdictAt (c :: t) with
    | some mr => subVerdictF fuel mr.2
    | none => c :: subVerdictF fuel t

/-- Verdict removal, app.py line 129 (before the trailing strip). -/
def subVerdict (l : List Char) : List Char := subVerdictF l.length l

/-- The error sentinel verdict line of app.py line 126. -/
def sentinelVerdict : List Char := "[VERDICT: Error] [CONFIDENCE: 0%]".toList

/-- Verdict-line extraction, app.py line 126: the matched substring of
the leftmost verdict-regex match, stripped, or the error sentinel. -/
def extractVerdictLine (t : List Char) : List Char :=
  match searchVerdict t with
  | some pmr => pyStrip pmr.2.1
  | none => sentinelVerdict

/-- Lazy scan embedding `.*?\*\*:` where `.` does not match a newline
(no DOTALL on app.py line 132): stop before the first `**:`, fail on a
newline or the end. Returns the rest of the input after the `**:`. -/
def findStarsColon : List Char → Option (List Char)
  | [] => none
  | c :: t =>
    if ("**:".toList).isPrefixOf (c :: t) then some ((c :: t).drop 3)
    else if c = '\n' then none
    else findStarsColon t

/-- Attempt to match `\d+\.\s+\*\*.*?\*\*:\s*` at the head of the list
(the head is assumed to be at a line start). Returns whether the match
ends with a newline (so that the resumed scan is again at a line start)
and the rest of the input. The greedy `\d+` and `\s+` runs are maximal;
backtracking them cannot succeed because the following literals `.` and
`*` are neither digits nor whitespace. -/
def match132At (l : List Char) : Option (Bool × List Char) :=
  let ds := l.takeWhile Char.isDigit
  if ds.isEmpty then none
  else
    match l.drop ds.length with
    | '.' :: r1 =>
      let w := r1.takeWhile isSpace
      if w.isEmpty then none
      else
        let r2 := r1.dropWhile isSpace
        if ("**".toList).isPrefixOf r2 then
          match findStarsColon (r2.drop 2) with
          | some r3 =>
            let w2 := r3.takeWhile isSpace
            some (decide (w2.getLast? = some '\n'), r3.dropWhile isSpace)
          | none => none
        else none
    | _ => none

/-- Fuel-indexed embedding of
`re.sub(r'^\d+\.\s+\*\*.*?\*\*:\s*', '', s, flags=re.MULTILINE)`,
app.py line 132. The Boolean argument records whether the current
position is a line start (string start or just after a newline), the
only positions where the `^`-anchored pattern can match. -/
def sub132F : Nat → Bool → List Char → List Char
  | 0, _, _ => []
  | _ + 1, _, [] => []
  | fuel + 1, atStart, c :: t =>
    if atStart then
      match match132At (c :: t) with
      | some nr => sub132F fuel nr.1 nr.2
      | none => c :: sub132F fuel (decide (c = '\n')) t
    else c :: sub132F fuel (decide (c = '\n')) t

/-- Numbered-heading removal, app.py line 132 (before the strip). -/
def sub132 (l : List Char) : List Char := sub132F l.length true l

/-- Literal of app.py line 136. -/
def pvLit : List Char := "**Provide a Verdict**:".toList

/-- Fuel-indexed embedding of
`re.sub(r'\*\*Provide a Verdict\*\*:\s*', '', s)`, app.py line 136:
remove every occurrence of the literal together with the greedy
whitespace run that follows it. -/
def sub136F : Nat → List Char → List Char
  | 0, _ => []
  | _ + 1, [] => []
  | fuel + 1, c :: t =>
    if pvLit.isPrefixOf (c :: t) then
      sub136F fuel (((c :: t).drop pvLit.length).dropWhile isSpace)
    else c :: sub136F fuel t

/-- Filler-header removal, app.py line 136 (before the strip). -/
def sub136 (l : List Char) : List Char := sub136F l.length l

/-- Lazy scan embedding `(.*?)\*\*:` with `.` not matching a newline:
capture up to the first `**:`, fail on a newline or the end. Returns
the captured group and the rest of the input after the `**:`. -/
def grabGroup : List Char → Option (List Char × List Char)
  | [] => none
  | c :: t =>
    if ("**:".toList).isPrefixOf (c :: t) then some ([], (c :: t).drop 3)
    else if c = '\n' then none
    else (grabGroup t).map (fun gr => (c :: gr.1, gr.2))

/-- Fuel-indexed embedding of
`re.sub(r'\*\*(.*?)\*\*:\s*', r'<h4>\1</h4>\n', s)`, app.py line 139:
each match is replaced by the captured group wrapped in h4 tags plus a
newline; the greedy trailing whitespace run is consumed; replacements
are not rescanned. -/
def sub139F : Nat → List Char → List Char
  | 0, _ => []
  | _ + 1, [] => []
  | fuel + 1, c :: t =>
    if ("**".toList).isPrefixOf (c :: t) then
      match grabGroup ((c :: t).drop 2) with
      | some gr =>
        "<h4>".toList ++ gr.1 ++ "</h4>\n".toList ++
          sub139F fuel (gr.2.dropWhile isSpace)
      | none => c :: sub139F fuel t
    else c :: sub139F fuel t

/-- Heading promotion, app.py line 139 (before the strip). -/
def sub139 (l : List Char) : List Char := sub139F l.length l

/-- Fuel-indexed embedding of `re.sub(r'\n+', '\n\n', s)`, app.py line
142: every maximal run of newlines is replaced by exactly two
newlines. -/
def collapse142F : Nat → List Char → List Char
  | 0, _ => []
  | _ + 1, [] => []
  | fuel + 1, c :: t =>
    if c = '\n' then
      '\n' :: '\n' :: collapse142F fuel (t.dropWhile (fun d => decide (d = '\n')))
    else c :: collapse142F fuel t

/-- Newline-run collapsing, app.py line 142 (before the strip). -/
def collapse142 (l : List Char) : List Char := collapse142F l.length l

/-- The whole whitespace-normalization step of app.py line 142:
newline-run collapsing followed by `str.strip()`. -/
def step142 (l : List Char) : List Char := pyStrip (collapse142 l)

/-- Checks that every maximal run of newline characters in the list has
length exactly two. -/
def nlRunsTwo : List Char → Bool
  | [] => true
  | c :: t =>
    if c = '\n' then
      match t with
      | [] => false
      | d :: t2 =>
        if d = '\n' then
          (match t2 with
           | [] => true
           | e :: _ => decide (e ≠ '\n')) && nlRunsTwo t2
        else false
    else nlRunsTwo t

/-- The body-cleanup steps of app.py lines 129-142 applied after the
verdict removal: the strip of line 129, then numbered-heading removal,
filler-header removal and heading promotion (lines 132, 136, 139, each
with its trailing strip), then whitespace normalization (line 142). -/
def cleanSteps (l : List Char) : List Char :=
  step142 (pyStrip (sub139 (pyStrip (sub136 (pyStrip (sub132 (pyStrip l)))))))

/-- The response-normalization pipeline of app.py lines 120-142:
tag stripping, verdict extraction, verdict removal, then the body
cleanup steps. Returns the pair (verdict line, cleaned analysis
body). -/
def normalizeResponse (raw : List Char) : List Char × List Char :=
  (extractVerdictLine (stripTags raw), cleanSteps (subVerdict (stripTags raw)))

/-- The separator of app.py line 145. -/
def sepLit : List Char := "---SEPARATOR---".toList

/-- The combined result string of app.py line 145. -/
def formatFinal (raw : List Char) : List Char :=
  (normalizeResponse raw).1 ++ sepLit ++ (normalizeResponse raw).2

/-- Substring test: does the first list contain the second as a
contiguous substring? -/
def containsSub (l sub : List Char) : Bool :=
  match l with
  | [] => sub.isEmpty
  | c :: t => sub.isPrefixOf (c :: t) || containsSub t sub

/-- The three verdict labels of the NormalizedResult data model. -/
inductive VerdictLabel
  | Present
  | NotPresent
  | Error
deriving DecidableEq

/-- The phrase indicating a negative verdict, from the fixed grammar of
the prompt (app.py line 32): Gall Disease Not Present. -/
def notPresentPhrase : List Char := "Not Present".toList

/-- The phrase indicating a positive verdict, from the fixed grammar of
the prompt (app.py line 32): Gall Disease Present. -/
def presentPhrase : List Char := "Present".toList

/-- Modelled from the spec: the verdict-classification step of the
ResponseNormalizer (spec section 4.3 step 3) is not present in
src/app.py, which only forwards the verdict line as text; the display
layer consuming it is not under src/. Following the words of the spec,
a verdict text containing the not-present phrase is classified
NotPresent, a text containing the present-indicating phrase (that is,
the present phrase not as part of the not-present phrase) is classified
Present, and anything else is classified Error. -/
def classifyVerdict (v : List Char) : VerdictLabel :=
  if containsSub v notPresentPhrase then VerdictLabel.NotPresent
  else if containsSub v presentPhrase then VerdictLabel.Present
  else VerdictLabel.Error

/-- Split the list just after the first occurrence of the marker,
returning the remainder. -/
def afterFirst (marker : List Char) : List Char → Option (List Char)
  | [] => if marker.isEmpty then some [] else none
  | c :: t =>
    if marker.isPrefixOf (c :: t) then some ((c :: t).drop marker.length)
    else afterFirst marker t

/-- Decimal value of a digit list. -/
def digitsToNat (ds : List Char) : Nat :=
  ds.foldl (fun n c => n * 10 + (c.toNat - 48)) 0

/-- The confidence marker of the verdict-line grammar (spec section 6):
the literal `[CONFIDENCE: ` including the space. -/
def confMarker : List Char := "[CONFIDENCE: ".toList

/-- Modelled from the spec: the confidence-parsing step of the
ResponseNormalizer (spec section 4.3 step 3) is not present in
src/app.py, which only forwards the verdict line as text. Following the
words of the spec, the digits standing between the `[CONFIDENCE: `
marker and the `%` are parsed as an integer and clamped to [0,100];
when the marker is absent, no `%` follows, or the segment is not a
plain digit run, the default 0 is returned. -/
def parseConfidence (line : List Char) : Nat :=
  match afterFirst confMarker line with
  | none => 0
  | some rest =>
    if (rest.dropWhile (fun c => decide (c ≠ '%'))).isEmpty then 0
    else if (rest.takeWhile (fun c => decide (c ≠ '%'))).isEmpty then 0
    else if (rest.takeWhile (fun c => decide (c ≠ '%'))).all Char.isDigit then
      min (digitsToNat (rest.takeWhile (fun c => decide (c ≠ '%')))) 100
    else 0

/-- PIL color modes relevant to optimize_image (app.py line 46): the
modes the source converts plus representative modes it does not. -/
inductive PMode
  | RGB
  | RGBA
  | P
  | LA
  | L
  | CMYK
deriving DecidableEq

/-- In-memory decoded image: dimensions plus color mode. -/
structure PILImage where
  width : Nat
  height : Nat
  mode : PMode
deriving DecidableEq

/-- The thumbnail branch of optimize_image, app.py lines 41-43: when a
dimension exceeds 1024 the image is rescaled; the PIL thumbnail
computation is an external collaborator, so the new dimensions enter
as the resize parameter. Rescaling cannot touch the mode. -/
def thumbnailStep (resize : Nat → Nat → Nat × Nat) (img : PILImage) : PILImage :=
  if 1024 < img.width ∨ 1024 < img.height then
    PILImage.mk (resize img.width img.height).1 (resize img.width img.height).2 img.mode
  else img

/-- Embedding of optimize_image, app.py lines 36-49: the thumbnail
branch followed by the mode conversion, which happens exactly when the
mode is RGBA, P or LA. -/
def optimize_image (resize : Nat → Nat → Nat × Nat) (img : PILImage) : PILImage :=
  if (thumbnailStep resize img).mode = PMode.RGBA
      ∨ (thumbnailStep resize img).mode = PMode.P
      ∨ (thumbnailStep resize img).mode = PMode.LA then
    PILImage.mk (thumbnailStep resize img).width (thumbnailStep resize img).height PMode.RGB
  else thumbnailStep resize img

/-- An uploaded multipart file: declared filename plus the outcome of
decoding its bytes with the imaging collaborator (none models a decode
failure, which app.py lines 104-107 swallows and skips). -/
structure UpFile where
  filename : List Char
  decoded : Option PILImage
deriving DecidableEq

/-- An element of the content sequence sent to the inference
collaborator: the fixed prompt or an optimized image. -/
inductive ContentItem
  | prompt
  | image (img : PILImage)
deriving DecidableEq

/-- Outcome of the inference collaborator: returned text, or a raised
provider error carrying a diagnostic rendering of the exception. -/
inductive InferResult
  | ok (text : List Char)
  | err (msg : List Char)

/-- Observable outcome of the analyze handler: a redirect to the upload
page, or a redirect to the results page with the given session value. -/
inductive Outcome
  | toIndex
  | toResults (stored : List Char)
deriving DecidableEq

/-- The configuration-error session value of app.py line 76. -/
def configErrorMsg : List Char :=
  ("[VERDICT: Error] [CONFIDENCE: 0%]---SEPARATOR---Critical Error: AI service not configured. Check GEMINI_API_KEY.").toList

/-- The inference-failure session value of app.py line 159, around the
diagnostic rendering of the exception. -/
def apiErrorMsg (msg : List Char) : List Char :=
  sentinelVerdict ++ sepLit ++ "Critical Error during AI Analysis: ".toList ++ msg
    ++ ". Please check your Gemini API key and usage quota.".toList

/-- The content list built by the loop of app.py lines 87-107: the
prompt first, then one optimized image for every uploaded file that has
a nonempty filename and decodes; the others are skipped. -/
def buildContent (resize : Nat → Nat → Nat × Nat) (files : List UpFile) : List ContentItem :=
  files.foldl
    (fun acc f =>
      if f.filename = [] then acc
      else
        match f.decoded with
        | none => acc
        | some img => acc ++ [ContentItem.image (optimize_image resize img)])
    [ContentItem.prompt]

/-- Embedding of the analyze_tuber handler, app.py lines 67-160:
check the client configuration, check that files were uploaded, build
the content list, short-circuit to the upload page when only the prompt
remains, otherwise invoke the inference collaborator and store the
formatted or error result. The Boolean of the pair records whether the
inference collaborator was invoked. -/
def analyze_tuber (configured : Bool) (resize : Nat → Nat → Nat × Nat)
    (files : List UpFile) (infer : List ContentItem → InferResult) : Outcome × Bool :=
  if configured = false then (Outcome.toResults configErrorMsg, false)
  else if files.isEmpty then (Outcome.toIndex, false)
  else if (buildContent resize files).length = 1 then (Outcome.toIndex, false)
  else
    match infer (buildContent resize files) with
    | InferResult.ok text => (Outcome.toResults (formatFinal text), true)
    | InferResult.err msg => (Outcome.toResults (apiErrorMsg msg), true)

/-- The default session value of the results route, app.py line 171. -/
def defaultResultMsg : List Char :=
  ("[VERDICT: Error] [CONFIDENCE: 0%]---SEPARATOR---No analysis data found in session. This can happen if you navigate directly or if the session timed out. The image display feature has been temporarily removed to fix a critical server error (500). Please go back and upload an image.").toList

/-- Embedding of the results route, app.py lines 163-177: pop the
stored analysis result from the session (none models an absent key) and
render it, falling back to the default message. Returns the rendered
text and the session value after the request. -/
def results (sessionVal : Option (List Char)) : List Char × Option (List Char) :=
  (sessionVal.getD defaultResultMsg, none)

/-! ### General list lemmas -/

theorem length_dropWhile_le (p : Char → Bool) :
    ∀ l : List Char, (l.dropWhile p).length ≤ l.length := by
  intro l
  induction l with
  | nil => simp
  | cons c t ih =>
    rw [List.dropWhile_cons]
    split
    · exact Nat.le_succ_of_le ih
    · simp

theorem dropWhile_head_not (p : Char → Bool) :
    ∀ (l : List Char) c t, l.dropWhile p = c :: t → p c = false := by
  intro l
  induction l with
  | nil => intro c t h; simp at h
  | cons a l ih =>
    intro c t h
    rw [List.dropWhile_cons] at h
    by_cases ha : p a = true
    · rw [if_pos ha] at h; exact ih c t h
    · rw [if_neg ha] at h
      obtain ⟨rfl, -⟩ := List.cons.inj h
      exact Bool.eq_false_iff.mpr ha

theorem isPrefixOf_eq_append (p : List Char) (l : List Char)
    (h : p.isPrefixOf l = true) : l = p ++ l.drop p.length := by
  obtain ⟨t, rfl⟩ := List.isPrefixOf_iff_prefix.mp h
  rw [List.drop_left]

theorem mem_dropWhile (p : Char → Bool) (l : List Char) (a : Char)
    (h : a ∈ l.dropWhile p) : a ∈ l :=
  (List.dropWhile_sublist _).subset h

/-! ### Lemmas about tag stripping (app.py line 122) -/

theorem collapseNil_stripTagsF : ∀ n : Nat, stripTagsF n [] = [] := by
  intro n; cases n <;> rfl

theorem mem_stripTagsF : ∀ (n : Nat) (l : List Char), ∀ a ∈ stripTagsF n l, a ∈ l := by
  intro n
  induction n with
  | zero => intro l a h; simp [stripTagsF] at h
  | succ n ih =>
    intro l a h
    match l with
    | [] => simp [stripTagsF] at h
    | c :: t =>
      by_cases hc : c = '<'
      · subst hc
        rw [stripTagsF, if_pos rfl] at h
        by_cases hskip :
            ((t.takeWhile fun d => decide (d ≠ '>')).isEmpty
              || (t.dropWhile fun d => decide (d ≠ '>')).isEmpty) = true
        · rw [if_pos hskip] at h
          rcases List.mem_cons.mp h with h1 | h1
          · exact h1 ▸ List.mem_cons_self _ _
          · exact List.mem_cons_of_mem _ (ih t a h1)
        · rw [if_neg hskip] at h
          have h1 := ih _ a h
          have h2 : a ∈ t.dropWhile fun d => decide (d ≠ '>') :=
            List.drop_subset _ _ h1
          exact List.mem_cons_of_mem _ (mem_dropWhile _ t a h2)
      · rw [stripTagsF, if_neg hc] at h
        rcases List.mem_cons.mp h with h1 | h1
        · exact h1 ▸ List.mem_cons_self _ _
        · exact List.mem_cons_of_mem _ (ih t a h1)

theorem hasTag_cons (c : Char) (t : List Char) :
    hasTag (c :: t) = (startsWithTag (c :: t) || hasTag t) := rfl

theorem startsWithTag_not_lt (c : Char) (t : List Char) (h : c ≠ '<') :
    startsWithTag (c :: t) = false := by
  simp [startsWithTag, h]

theorem startsWithTag_no_gt (c : Char) (s : List Char)
    (h : (s.dropWhile fun d => decide (d ≠ '>')) = []) :
    startsWithTag (c :: s) = false := by
  have h2 : (s.dropWhile fun d => decide (d ≠ '>')).isEmpty = true := by
    rw [h]; rfl
  simp only [startsWithTag, h2, Bool.not_true, Bool.and_false]

theorem startsWithTag_gt_head (c : Char) (s : List Char) :
    startsWithTag (c :: '>' :: s) = false := by
  have h1 : (('>' :: s).takeWhile fun d => decide (d ≠ '>')) = [] := by
    rw [List.takeWhile_cons]
    simp
  simp only [startsWithTag, h1]
  simp

theorem stripTagsF_spec : ∀ (n : Nat) (l : List Char), l.length ≤ n →
    TagDeleted l (stripTagsF n l) ∧ hasTag (stripTagsF n l) = false := by
  intro n
  induction n with
  | zero =>
    intro l hl
    rw [Nat.le_zero, List.length_eq_zero] at hl
    subst hl
    exact ⟨TagDeleted.nil, rfl⟩
  | succ n ih =>
    intro l hl
    cases l with
    | nil => exact ⟨TagDeleted.nil, rfl⟩
    | cons c t =>
      have ht : t.length ≤ n := by
        rw [List.length_cons] at hl
        omega
      by_cases hc : c = '<'
      · subst hc
        by_cases hskip :
            ((t.takeWhile fun d => decide (d ≠ '>')).isEmpty
              || (t.dropWhile fun d => decide (d ≠ '>')).isEmpty) = true
        · have hunf : stripTagsF (n + 1) ('<' :: t) = '<' :: stripTagsF n t := by
            rw [stripTagsF, if_pos rfl, if_pos hskip]
          obtain ⟨ihd, ihh⟩ := ih t ht
          refine ⟨hunf ▸ TagDeleted.keep _ _ _ ihd, ?_⟩
          rw [hunf, hasTag_cons, ihh, Bool.or_false]
          rcases Bool.or_eq_true_iff.mp hskip with hpre | hpost
          · -- the first character of t is a `>` (or t is empty)
            cases t with
            | nil =>
              rw [collapseNil_stripTagsF]
              simp [startsWithTag]
            | cons d t2 =>
              rw [List.takeWhile_cons] at hpre
              by_cases hd : decide (d ≠ '>') = true
              · rw [if_pos hd] at hpre
                simp at hpre
              · have hd2 : d = '>' := by
                  by_contra hne
                  exact hd (by simpa using hne)
                subst hd2
                cases n with
                | zero => simp at ht
                | succ m =>
                  rw [stripTagsF, if_neg (by decide : ¬('>' : Char) = '<')]
                  exact startsWithTag_gt_head _ _
          · -- t contains no `>` at all
            have hnone : ∀ x ∈ t, decide (x ≠ '>') = true :=
              (List.dropWhile_eq_nil_iff).mp (List.isEmpty_iff.mp hpost)
            have hno : ∀ x ∈ stripTagsF n t, decide (x ≠ '>') = true :=
              fun x hx => hnone x (mem_stripTagsF n t x hx)
            exact startsWithTag_no_gt _ _ (List.dropWhile_eq_nil_iff.mpr hno)
        · have hunf : stripTagsF (n + 1) ('<' :: t)
              = stripTagsF n ((t.dropWhile fun d => decide (d ≠ '>')).drop 1) := by
            rw [stripTagsF, if_pos rfl, if_neg hskip]
          rw [Bool.or_eq_true_iff, not_or] at hskip
          obtain ⟨hpre, hpost⟩ := hskip
          have hpre2 : (t.takeWhile fun d => decide (d ≠ '>')) ≠ [] := by
            intro h0
            exact hpre (by rw [h0]; rfl)
          have hpost2 : (t.dropWhile fun d => decide (d ≠ '>')) ≠ [] := by
            intro h0
            exact hpost (by rw [h0]; rfl)
          rcases hpost3 : t.dropWhile fun d => decide (d ≠ '>') with - | ⟨p0, post2⟩
          · exact absurd hpost3 hpost2
          · have hp0 : p0 = '>' := by
              have := dropWhile_head_not _ t p0 post2 hpost3
              simpa using this
            subst hp0
            have hlen : post2.length ≤ n := by
              have h1 := length_dropWhile_le (fun d => decide (d ≠ '>')) t
              rw [hpost3, List.length_cons] at h1
              omega
            obtain ⟨ihd, ihh⟩ := ih post2 hlen
            have hdecomp : '<' :: t
                = '<' :: ((t.takeWhile fun d => decide (d ≠ '>')) ++ '>' :: post2) := by
              conv_lhs => rw [← List.takeWhile_append_dropWhile
                (fun d => decide (d ≠ '>')) t]
              rw [hpost3]
            have hmem : ∀ x ∈ t.takeWhile fun d => decide (d ≠ '>'), x ≠ '>' := by
              intro x hx
              have := List.mem_takeWhile_imp hx
              simpa using this
            have hrest : ((t.dropWhile fun d => decide (d ≠ '>')).drop 1) = post2 := by
              rw [hpost3]
              rfl
            refine ⟨?_, ?_⟩
            · rw [hunf, hrest, hdecomp]
              exact TagDeleted.del _ _ _ hpre2 hmem ihd
            · rw [hunf, hrest]
              exact ihh
      · have hunf : stripTagsF (n + 1) (c :: t) = c :: stripTagsF n t := by
          rw [stripTagsF, if_neg hc]
        obtain ⟨ihd, ihh⟩ := ih t ht
        refine ⟨hunf ▸ TagDeleted.keep _ _ _ ihd, ?_⟩
        rw [hunf, hasTag_cons, ihh, Bool.or_false, startsWithTag_not_lt c _ hc]

/-! ### Lemmas about newline collapsing and stripping (app.py line 142) -/

theorem collapse142F_nil : ∀ n : Nat, collapse142F n [] = [] := by
  intro n; cases n <;> rfl

theorem nlRunsTwo_cons_not (c : Char) (t : List Char) (h : c ≠ '\n') :
    nlRunsTwo (c :: t) = nlRunsTwo t := by
  conv_lhs => rw [nlRunsTwo.eq_def]
  simp [h]

theorem nlRunsTwo_two (t : List Char) (h : t.head? ≠ some '\n') :
    nlRunsTwo ('\n' :: '\n' :: t) = nlRunsTwo t := by
  conv_lhs => rw [nlRunsTwo.eq_def]
  cases t with
  | nil => simp
  | cons e t2 =>
    have he : e ≠ '\n' := by
      intro h0
      exact h (by rw [h0]; rfl)
    simp [he]

theorem nlRunsTwo_inv (t : List Char) (h : nlRunsTwo ('\n' :: t) = true) :
    ∃ t2, t = '\n' :: t2 ∧ t2.head? ≠ some '\n' ∧ nlRunsTwo t2 = true := by
  rw [nlRunsTwo.eq_def] at h
  cases t with
  | nil => simp at h
  | cons d t2 =>
    by_cases hd : d = '\n'
    · subst hd
      cases t2 with
      | nil => exact ⟨[], rfl, by simp, rfl⟩
      | cons e t3 =>
        simp only [if_true] at h
        rw [Bool.and_eq_true, decide_eq_true_eq] at h
        refine ⟨e :: t3, rfl, ?_, h.2⟩
        intro h0
        rw [List.head?_cons] at h0
        injection h0 with h1
        exact h.1 h1
    · simp [hd] at h

theorem dropWhile_nl_head (t : List Char) :
    (t.dropWhile fun d => decide (d = '\n')).head? ≠ some '\n' := by
  rcases h : t.dropWhile fun d => decide (d = '\n') with - | ⟨c, r⟩
  · simp
  · have := dropWhile_head_not _ t c r h
    simp only [decide_eq_true_eq] at this  -- wait, decide_eq_false?
    intro h0
    rw [List.head?_cons] at h0
    injection h0 with h1
    rw [h1] at this
    simp at this

theorem collapse142F_head_not_nl : ∀ (n : Nat) (l : List Char),
    l.head? ≠ some '\n' → (collapse142F n l).head? ≠ some '\n' := by
  intro n l h
  cases n with
  | zero => simp [collapse142F]
  | succ m =>
    cases l with
    | nil => simp [collapse142F]
    | cons c t =>
      have hc : c ≠ '\n' := by
        intro h0
        exact h (by rw [h0]; rfl)
      rw [collapse142F, if_neg hc]
      simpa using hc

theorem filter_ne_cons_self (t : List Char) :
    List.filter (fun c => decide (c ≠ '\n')) ('\n' :: t)
      = List.filter (fun c => decide (c ≠ '\n')) t := by
  rw [List.filter_cons]
  simp

theorem filter_ne_cons (c : Char) (h : c ≠ '\n') (t : List Char) :
    List.filter (fun c => decide (c ≠ '\n')) (c :: t)
      = c :: List.filter (fun c => decide (c ≠ '\n')) t := by
  rw [List.filter_cons]
  simp [h]

theorem collapse142F_filter : ∀ (n : Nat) (l : List Char), l.length ≤ n →
    (collapse142F n l).filter (fun c => decide (c ≠ '\n'))
      = l.filter (fun c => decide (c ≠ '\n')) := by
  intro n
  induction n with
  | zero =>
    intro l hl
    rw [Nat.le_zero, List.length_eq_zero] at hl
    subst hl
    rfl
  | succ n ih =>
    intro l hl
    cases l with
    | nil => rfl
    | cons c t =>
      have ht : t.length ≤ n := by
        rw [List.length_cons] at hl
        omega
      by_cases hc : c = '\n'
      · subst hc
        rw [collapse142F, if_pos rfl]
        have hdrop : (t.dropWhile fun d => decide (d = '\n')).length ≤ n :=
          le_trans (length_dropWhile_le _ t) ht
        have hsplit : t.filter (fun c => decide (c ≠ '\n'))
            = (t.dropWhile fun d => decide (d = '\n')).filter (fun c => decide (c ≠ '\n')) := by
          conv_lhs => rw [← List.takeWhile_append_dropWhile
            (fun d => decide (d = '\n')) t]
          rw [List.filter_append]
          have htk : (t.takeWhile fun d => decide (d = '\n')).filter
              (fun c => decide (c ≠ '\n')) = [] := by
            rw [List.filter_eq_nil_iff]
            intro a ha
            have := List.mem_takeWhile_imp ha
            simpa using this
          rw [htk, List.nil_append]
        rw [filter_ne_cons_self, filter_ne_cons_self, filter_ne_cons_self,
          ih _ hdrop, hsplit]
      · rw [collapse142F, if_neg hc, filter_ne_cons c hc, filter_ne_cons c hc,
          ih t ht]

theorem collapse142F_runs : ∀ (n : Nat) (l : List Char), l.length ≤ n →
    nlRunsTwo (collapse142F n l) = true := by
  intro n
  induction n with
  | zero =>
    intro l hl
    rw [Nat.le_zero, List.length_eq_zero] at hl
    subst hl
    rfl
  | succ n ih =>
    intro l hl
    cases l with
    | nil => rfl
    | cons c t =>
      have ht : t.length ≤ n := by
        rw [List.length_cons] at hl
        omega
      by_cases hc : c = '\n'
      · subst hc
        rw [collapse142F, if_pos rfl]
        have hdrop : (t.dropWhile fun d => decide (d = '\n')).length ≤ n :=
          le_trans (length_dropWhile_le _ t) ht
        have hhead : ((collapse142F n (t.dropWhile fun d => decide (d = '\n')))).head?
            ≠ some '\n' :=
          collapse142F_head_not_nl n _ (dropWhile_nl_head t)
        rw [nlRunsTwo_two _ hhead]
        exact ih _ hdrop
      · rw [collapse142F, if_neg hc, nlRunsTwo_cons_not _ _ hc]
        exact ih t ht

theorem collapse142F_id : ∀ (n : Nat) (l : List Char), l.length ≤ n →
    nlRunsTwo l = true → collapse142F n l = l := by
  intro n
  induction n with
  | zero =>
    intro l hl _
    rw [Nat.le_zero, List.length_eq_zero] at hl
    subst hl
    rfl
  | succ n ih =>
    intro l hl hruns
    cases l with
    | nil => rfl
    | cons c t =>
      by_cases hc : c = '\n'
      · subst hc
        obtain ⟨t2, rfl, hhead, hruns2⟩ := nlRunsTwo_inv t hruns
        rw [collapse142F, if_pos rfl]
        have hdw : (('\n' :: t2).dropWhile fun d => decide (d = '\n')) = t2 := by
          rw [List.dropWhile_cons]
          simp only [decide_True, if_true]  -- drop the second newline of the run
          cases t2 with
          | nil => rfl
          | cons e t3 =>
            have he : e ≠ '\n' := by
              intro h0
              exact hhead (by rw [h0]; rfl)
            rw [List.dropWhile_cons, if_neg (by simpa using he)]
        rw [hdw]
        have ht2 : t2.length ≤ n := by
          rw [List.length_cons, List.length_cons] at hl
          omega
        rw [ih t2 ht2 hruns2]
      · have ht : t.length ≤ n := by
          rw [List.length_cons] at hl
          omega
        rw [collapse142F, if_neg hc, nlRunsTwo_cons_not _ _ hc] at *
        rw [ih t ht hruns]

theorem nlRunsTwo_dropWhile_space : ∀ (n : Nat) (l : List Char), l.length ≤ n →
    nlRunsTwo l = true → nlRunsTwo (l.dropWhile isSpace) = true := by
  intro n
  induction n with
  | zero =>
    intro l hl _
    rw [Nat.le_zero, List.length_eq_zero] at hl
    subst hl
    rfl
  | succ n ih =>
    intro l hl hruns
    cases l with
    | nil => rfl
    | cons c t =>
      rw [List.dropWhile_cons]
      by_cases hsp : isSpace c = true
      · rw [if_pos hsp]
        by_cases hc : c = '\n'
        · subst hc
          obtain ⟨t2, rfl, hhead, hruns2⟩ := nlRunsTwo_inv t hruns
          have hdw : ('\n' :: t2).dropWhile isSpace = t2.dropWhile isSpace := by
            rw [List.dropWhile_cons, if_pos (by decide)]
          rw [hdw]
          have ht2 : t2.length ≤ n := by
            rw [List.length_cons, List.length_cons] at hl
            omega
          exact ih t2 ht2 hruns2
        · have ht : t.length ≤ n := by
            rw [List.length_cons] at hl
            omega
          rw [nlRunsTwo_cons_not _ _ hc] at hruns
          exact ih t ht hruns
      · rw [if_neg hsp]
        exact hruns

theorem dropEndWhile_head (p : Char → Bool) (l : List Char)
    (h : dropEndWhile p l ≠ []) : (dropEndWhile p l).head? = l.head? := by
  cases l with
  | nil => rfl
  | cons c t =>
    rw [dropEndWhile] at *
    by_cases hif : ((dropEndWhile p t).isEmpty && p c) = true
    · rw [if_pos hif] at h
      exact absurd rfl h
    · rw [if_neg hif]
      rfl

theorem nlRunsTwo_dropEndWhile_space : ∀ (n : Nat) (l : List Char), l.length ≤ n →
    nlRunsTwo l = true → nlRunsTwo (dropEndWhile isSpace l) = true := by
  intro n
  induction n with
  | zero =>
    intro l hl _
    rw [Nat.le_zero, List.length_eq_zero] at hl
    subst hl
    rfl
  | succ n ih =>
    intro l hl hruns
    cases l with
    | nil => rfl
    | cons c t =>
      rw [dropEndWhile]
      by_cases hif : ((dropEndWhile isSpace t).isEmpty && isSpace c) = true
      · rw [if_pos hif]
        rfl
      · rw [if_neg hif]
        by_cases hc : c = '\n'
        · subst hc
          obtain ⟨t2, rfl, hhead, hruns2⟩ := nlRunsTwo_inv t hruns
          have ht2 : t2.length ≤ n := by
            rw [List.length_cons, List.length_cons] at hl
            omega
          have hr2 := ih t2 ht2 hruns2
          rw [dropEndWhile]
          by_cases hif2 : ((dropEndWhile isSpace t2).isEmpty && isSpace '\n') = true
          · exfalso
            apply hif
            rw [dropEndWhile, if_pos hif2]
            decide
          · rw [if_neg hif2]
            have hne : dropEndWhile isSpace t2 ≠ [] := by
              intro h0
              apply hif2
              rw [h0]
              decide
            have hh : (dropEndWhile isSpace t2).head? = t2.head? :=
              dropEndWhile_head _ _ hne
            rw [nlRunsTwo_two]
            · exact hr2
            · rw [hh]
              exact hhead
        · have ht : t.length ≤ n := by
            rw [List.length_cons] at hl
            omega
          rw [nlRunsTwo_cons_not _ _ hc] at hruns
          rw [nlRunsTwo_cons_not _ _ hc]
          exact ih t ht hruns

/-- Stripping preserves the two-newline run discipline: leading and
trailing whitespace removal can only delete whole newline runs, never
split one. -/
theorem nlRunsTwo_pyStrip (l : List Char) (h : nlRunsTwo l = true) :
    nlRunsTwo (pyStrip l) = true := by
  rw [pyStrip]
  exact nlRunsTwo_dropEndWhile_space _ _ le_rfl
    (nlRunsTwo_dropWhile_space l.length l le_rfl h)

theorem dropWhile_eq_self_of_head (p : Char → Bool) (l : List Char)
    (h : ∀ c t, l = c :: t → p c = false) : l.dropWhile p = l := by
  cases l with
  | nil => rfl
  | cons c t =>
    rw [List.dropWhile_cons, h c t rfl]
    simp

theorem dropEndWhile_idem (p : Char → Bool) :
    ∀ l : List Char, dropEndWhile p (dropEndWhile p l) = dropEndWhile p l := by
  intro l
  induction l with
  | nil => rfl
  | cons c t ih =>
    rw [dropEndWhile]
    by_cases hif : ((dropEndWhile p t).isEmpty && p c) = true
    · rw [if_pos hif]
      rfl
    · rw [if_neg hif, dropEndWhile, ih, if_neg hif]

theorem pyStrip_idem (l : List Char) : pyStrip (pyStrip l) = pyStrip l := by
  rw [pyStrip, pyStrip]
  have h1 : (dropEndWhile isSpace (l.dropWhile isSpace)).dropWhile isSpace
      = dropEndWhile isSpace (l.dropWhile isSpace) := by
    apply dropWhile_eq_self_of_head
    intro c t h
    have hne : dropEndWhile isSpace (l.dropWhile isSpace) ≠ [] := by
      rw [h]
      exact List.cons_ne_nil c t
    have hh := dropEndWhile_head isSpace (l.dropWhile isSpace) hne
    rw [h, List.head?_cons] at hh
    cases hd : l.dropWhile isSpace with
    | nil =>
      rw [hd] at hh
      simp at hh
    | cons d t2 =>
      rw [hd, List.head?_cons] at hh
      injection hh with hcd
      rw [hcd]
      exact dropWhile_head_not isSpace l d t2 hd
  rw [h1, dropEndWhile_idem]

/-! ### Lemmas about the verdict regex (app.py lines 125-129) -/

theorem findPctBracket_append : ∀ (l b r : List Char),
    findPctBracket l = some (b, r) → l = b ++ '%' :: ']' :: r := by
  intro l
  induction l with
  | nil =>
    intro b r h
    simp [findPctBracket] at h
  | cons c t ih =>
    intro b r h
    rw [findPctBracket] at h
    by_cases hp : ("%]".toList).isPrefixOf (c :: t) = true
    · rw [if_pos hp] at h
      injection h with h1
      have hdecomp := isPrefixOf_eq_append _ _ hp
      have hlit : "%]".toList = ['%', ']'] := rfl
      rw [hlit] at hdecomp
      injection h1 with hb hr
      subst hb
      subst hr
      simpa using hdecomp
    · rw [if_neg hp] at h
      obtain ⟨mr, hmr, heq⟩ := Option.map_eq_some'.mp h
      have h2 := ih mr.1 mr.2 (by rw [← hmr])
      injection heq with hb hr
      subst hb
      subst hr
      rw [List.cons_append, ← h2]

theorem tryConf_append (t m r : List Char) (h : tryConf t = some (m, r)) :
    t = m ++ r ∧ ∃ y, m = y ++ [']'] := by
  rw [tryConf] at h
  by_cases hp : confLit.isPrefixOf (t.dropWhile isSpace) = true
  · rw [if_pos hp] at h
    obtain ⟨br, hbr, heq⟩ := Option.map_eq_some'.mp h
    injection heq with hm hr
    subst hm
    subst hr
    have h1 := List.takeWhile_append_dropWhile isSpace t
    have h2 := isPrefixOf_eq_append _ _ hp
    have h3 := findPctBracket_append _ _ _ hbr
    constructor
    · conv_lhs => rw [← h1]
      rw [h2, h3]
      have hlit : "%]".toList = ['%', ']'] := rfl
      rw [hlit]
      simp [List.append_assoc]
    · refine ⟨t.takeWhile isSpace ++ confLit ++ br.1 ++ ['%'], ?_⟩
      have hlit : "%]".toList = ['%', ']'] := rfl
      rw [hlit]
      simp [List.append_assoc]
  · rw [if_neg hp] at h
    simp at h

theorem matchTail_append : ∀ (l m r : List Char), matchTail l = some (m, r) →
    l = m ++ r ∧ ∃ y, m = y ++ [']'] := by
  intro l
  induction l with
  | nil =>
    intro m r h
    simp [matchTail] at h
  | cons c t ih =>
    intro m r h
    rw [matchTail] at h
    cases hin : (if c = ']' then tryConf t else none) with
    | some mr =>
      rw [hin] at h
      injection h with h1
      injection h1 with hm hr
      subst hm
      subst hr
      have hc : c = ']' := by
        by_contra hne
        rw [if_neg hne] at hin
        exact Option.noConfusion hin
      subst hc
      rw [if_pos rfl] at hin
      obtain ⟨hap, y, hy⟩ := tryConf_append t mr.1 mr.2 hin
      refine ⟨?_, ']' :: y, ?_⟩
      · rw [List.cons_append, ← hap]
      · rw [hy, List.cons_append]
    | none =>
      rw [hin] at h
      obtain ⟨mr, hmr, heq⟩ := Option.map_eq_some'.mp h
      injection heq with hm hr
      subst hm
      subst hr
      obtain ⟨hap, y, hy⟩ := ih mr.1 mr.2 hmr
      refine ⟨?_, c :: y, ?_⟩
      · rw [List.cons_append, ← hap]
      · rw [hy, List.cons_append]

theorem matchVerdictAt_spec (l m r : List Char) (h : matchVerdictAt l = some (m, r)) :
    l = m ++ r ∧ 0 < m.length ∧ ∃ y, m = '[' :: (y ++ [']']) := by
  rw [matchVerdictAt] at h
  by_cases hp : verdLit.isPrefixOf l = true
  · rw [if_pos hp] at h
    obtain ⟨mr, hmr, heq⟩ := Option.map_eq_some'.mp h
    injection heq with hm hr
    subst hm
    subst hr
    obtain ⟨hap, y, hy⟩ := matchTail_append _ mr.1 mr.2 hmr
    have h2 := isPrefixOf_eq_append _ _ hp
    refine ⟨?_, ?_, ?_⟩
    · rw [h2, hap, List.append_assoc]
    · simp [verdLit]
    · refine ⟨"VERDICT:".toList ++ y, ?_⟩
      rw [hy]
      have hlit : verdLit = '[' :: "VERDICT:".toList := rfl
      rw [hlit]
      simp [List.append_assoc]
  · rw [if_neg hp] at h
    exact Option.noConfusion h

theorem dropEndWhile_append_last (p : Char → Bool) (d : Char) (hd : p d = false) :
    ∀ z : List Char, dropEndWhile p (z ++ [d]) = z ++ [d] := by
  intro z
  induction z with
  | nil =>
    rw [List.nil_append, dropEndWhile, dropEndWhile]
    rw [hd]
    simp
  | cons a z ih =>
    rw [List.cons_append, dropEndWhile, ih]
    have hne : (z ++ [d]).isEmpty = false := by
      cases z <;> rfl
    rw [hne]
    simp

theorem pyStrip_bracket_fix (m : List Char) (h : ∃ y, m = '[' :: (y ++ [']'])) :
    pyStrip m = m := by
  obtain ⟨y, rfl⟩ := h
  rw [pyStrip]
  have h1 : ('[' :: (y ++ [']'])).dropWhile isSpace = '[' :: (y ++ [']']) := by
    apply dropWhile_eq_self_of_head
    intro c t hct
    injection hct with hc _
    rw [← hc]
    decide
  rw [h1]
  have h2 : '[' :: (y ++ [']']) = ('[' :: y) ++ [']'] := by
    rw [List.cons_append]
  rw [h2]
  exact dropEndWhile_append_last isSpace ']' (by decide) _

theorem searchVerdict_decomp : ∀ (l p m r : List Char),
    searchVerdict l = some (p, m, r) →
    l = p ++ m ++ r ∧ matchVerdictAt (m ++ r) = some (m, r) := by
  intro l
  induction l with
  | nil =>
    intro p m r h
    simp [searchVerdict] at h
  | cons c t ih =>
    intro p m r h
    rw [searchVerdict] at h
    cases hma : matchVerdictAt (c :: t) with
    | some mr =>
      rw [hma] at h
      injection h with h1
      injection h1 with hp h2
      injection h2 with hm hr
      subst hp
      subst hm
      subst hr
      have hsp := (matchVerdictAt_spec _ _ _ hma).1
      refine ⟨by rw [List.nil_append, ← hsp], ?_⟩
      rw [← hsp]
      exact hma
    | none =>
      rw [hma] at h
      obtain ⟨pmr, hpmr, heq⟩ := Option.map_eq_some'.mp h
      injection heq with hp h2
      injection h2 with hm hr
      subst hp
      subst hm
      subst hr
      obtain ⟨hap, hat⟩ := ih pmr.1 pmr.2.1 pmr.2.2 hpmr
      refine ⟨?_, hat⟩
      simp only [List.cons_append]
      rw [← hap]

theorem subVerdictF_nil : ∀ n : Nat, subVerdictF n [] = [] := by
  intro n
  cases n <;> rfl

theorem subVerdictF_congr : ∀ (n1 n2 : Nat) (l : List Char),
    l.length ≤ n1 → l.length ≤ n2 → subVerdictF n1 l = subVerdictF n2 l := by
  intro n1
  induction n1 with
  | zero =>
    intro n2 l h1 _
    rw [Nat.le_zero, List.length_eq_zero] at h1
    subst h1
    rw [subVerdictF_nil, subVerdictF_nil]
  | succ n1 ih =>
    intro n2 l h1 h2
    cases l with
    | nil => rw [subVerdictF_nil, subVerdictF_nil]
    | cons c t =>
      cases n2 with
      | zero => simp at h2
      | succ m2 =>
        rw [subVerdictF, subVerdictF]
        cases hma : matchVerdictAt (c :: t) with
        | some mr =>
          obtain ⟨hap, hpos, -⟩ := matchVerdictAt_spec _ _ _ hma
          have hlen : mr.2.length ≤ t.length := by
            have := congrArg List.length hap
            rw [List.length_cons, List.length_append] at this
            omega
          rw [List.length_cons] at h1 h2
          exact ih m2 mr.2 (by omega) (by omega)
        | none =>
          show c :: subVerdictF n1 t = c :: subVerdictF m2 t
          rw [List.length_cons] at h1 h2
          rw [ih m2 t (by omega) (by omega)]

theorem subVerdict_removes : ∀ (l p m r : List Char),
    searchVerdict l = some (p, m, r) → subVerdict l = p ++ subVerdict r := by
  intro l
  induction l with
  | nil =>
    intro p m r h
    simp [searchVerdict] at h
  | cons c t ih =>
    intro p m r h
    rw [searchVerdict] at h
    cases hma : matchVerdictAt (c :: t) with
    | some mr =>
      rw [hma] at h
      injection h with h1
      injection h1 with hp h2
      injection h2 with hm hr
      subst hp
      subst hm
      subst hr
      obtain ⟨hap, hpos, -⟩ := matchVerdictAt_spec _ _ _ hma
      have hlen : mr.2.length ≤ t.length := by
        have := congrArg List.length hap
        rw [List.length_cons, List.length_append] at this
        omega
      rw [subVerdict, List.length_cons, subVerdictF, hma, List.nil_append]
      rw [subVerdict]
      exact subVerdictF_congr t.length mr.2.length mr.2 hlen le_rfl
    | none =>
      rw [hma] at h
      obtain ⟨pmr, hpmr, heq⟩ := Option.map_eq_some'.mp h
      injection heq with hp h2
      injection h2 with hm hr
      subst hp
      subst hm
      subst hr
      rw [subVerdict, List.length_cons, subVerdictF, hma]
      rw [List.cons_append]
      have := ih pmr.1 pmr.2.1 pmr.2.2 hpmr
      rw [subVerdict] at this
      rw [this]

theorem subVerdictF_id : ∀ (n : Nat) (l : List Char), l.length ≤ n →
    searchVerdict l = none → subVerdictF n l = l := by
  intro n
  induction n with
  | zero =>
    intro l h1 _
    rw [Nat.le_zero, List.length_eq_zero] at h1
    subst h1
    rfl
  | succ n ih =>
    intro l h1 hs
    cases l with
    | nil => rfl
    | cons c t =>
      rw [searchVerdict] at hs
      cases hma : matchVerdictAt (c :: t) with
      | some mr =>
        rw [hma] at hs
        exact Option.noConfusion hs
      | none =>
        rw [hma] at hs
        have hst : searchVerdict t = none := Option.map_eq_none'.mp hs
        rw [subVerdictF, hma]
        rw [List.length_cons] at h1
        rw [ih t (by omega) hst]

theorem subVerdict_id (l : List Char) (h : searchVerdict l = none) :
    subVerdict l = l :=
  subVerdictF_id l.length l le_rfl h

/-! ### Lemmas about the handler (app.py lines 67-160) -/

theorem buildContent_all_skipped (resize : Nat → Nat → Nat × Nat) :
    ∀ files : List UpFile, (∀ f ∈ files, f.filename = [] ∨ f.decoded = none) →
    buildContent resize files = [ContentItem.prompt] := by
  have haux : ∀ (files : List UpFile) (acc : List ContentItem),
      (∀ f ∈ files, f.filename = [] ∨ f.decoded = none) →
      files.foldl
        (fun acc f =>
          if f.filename = [] then acc
          else
            match f.decoded with
            | none => acc
            | some img => acc ++ [ContentItem.image (optimize_image resize img)])
        acc = acc := by
    intro files
    induction files with
    | nil =>
      intro acc _
      rfl
    | cons f fs ih =>
      intro acc hall
      rw [List.foldl_cons]
      have hstep : (if f.filename = [] then acc
          else
            match f.decoded with
            | none => acc
            | some img => acc ++ [ContentItem.image (optimize_image resize img)]) = acc := by
        rcases hall f (List.mem_cons_self f fs) with hf | hf
        · rw [if_pos hf]
        · by_cases hn : f.filename = []
          · rw [if_pos hn]
          · rw [if_neg hn, hf]
      rw [hstep]
      exact ih acc (fun g hg => hall g (List.mem_cons_of_mem f hg))
  intro files h
  exact haux files [ContentItem.prompt] h

/-! ### The claims -/

set_option maxRecDepth 200000

/-- Claim C1, corrected. For every raw text whose tag-stripped form
contains a verdict-grammar match, the extracted verdict line equals the
exact matched substring of the leftmost match, and the body is formed
by deleting every left-to-right non-overlapping grammar match from the
text: the matched occurrence itself is always removed. (The original
claim further asserted that the body contains no grammar match at all;
that part is refuted by the counterexample, because deletion can splice
the flanking fragments into a fresh match.) -/
theorem claim1_verdict_extraction (raw p m r : List Char)
    (h : searchVerdict (stripTags raw) = some (p, m, r)) :
    (normalizeResponse raw).1 = m
      ∧ stripTags raw = p ++ m ++ r
      ∧ subVerdict (stripTags raw) = p ++ subVerdict r := by
  obtain ⟨hdec, hat⟩ := searchVerdict_decomp _ p m r h
  refine ⟨?_, hdec, subVerdict_removes _ p m r h⟩
  rw [normalizeResponse, extractVerdictLine, h]
  show pyStrip m = m
  exact pyStrip_bracket_fix m (matchVerdictAt_spec _ _ _ hat).2.2

/-- Witness for claim C1 at the end-to-end scenario input of the spec. -/
theorem claim1_verdict_extraction_witness :
    searchVerdict (stripTags
        ("Findings here. [VERDICT: Gall Present] [CONFIDENCE: 92%]".toList))
      = some ("Findings here. ".toList,
          "[VERDICT: Gall Present] [CONFIDENCE: 92%]".toList, ([] : List Char))
      ∧ ((normalizeResponse
            ("Findings here. [VERDICT: Gall Present] [CONFIDENCE: 92%]".toList)).1
          = "[VERDICT: Gall Present] [CONFIDENCE: 92%]".toList
        ∧ stripTags ("Findings here. [VERDICT: Gall Present] [CONFIDENCE: 92%]".toList)
          = "Findings here. ".toList
            ++ "[VERDICT: Gall Present] [CONFIDENCE: 92%]".toList ++ ([] : List Char)
        ∧ subVerdict (stripTags
            ("Findings here. [VERDICT: Gall Present] [CONFIDENCE: 92%]".toList))
          = "Findings here. ".toList ++ subVerdict ([] : List Char)) :=
  ⟨by decide, claim1_verdict_extraction
    ("Findings here. [VERDICT: Gall Present] [CONFIDENCE: 92%]".toList)
    ("Findings here. ".toList)
    ("[VERDICT: Gall Present] [CONFIDENCE: 92%]".toList) [] (by decide)⟩

/-- Counterexample to claim C1 as stated: this input contains a
verdict-grammar match, yet after the verdict removal the spliced
flanks of the body form a fresh grammar match, so the body does
contain a substring matching the verdict grammar. -/
theorem claim1_extraction_counterexample :
    (searchVerdict (stripTags
        ("[VERD[VERDICT: x] [CONFIDENCE: 1%]ICT: z] [CONFIDENCE: 3%]".toList))).isSome
        = true
      ∧ (searchVerdict ((normalizeResponse
          ("[VERD[VERDICT: x] [CONFIDENCE: 1%]ICT: z] [CONFIDENCE: 3%]".toList)).2)).isSome
        = true := by
  constructor
  · decide
  · decide

/-- Claim C2, confirmed (spec-modelled classification): the label is
NotPresent when the not-present phrase occurs, Present when the present
phrase occurs outside the not-present phrase, Error otherwise; the
label is always one of the three values; and when extraction fails the
verdict line is the sentinel, which classifies as Error. -/
theorem claim2_classification :
    (∀ v : List Char,
      (containsSub v notPresentPhrase = true → classifyVerdict v = VerdictLabel.NotPresent)
      ∧ (containsSub v presentPhrase = true → containsSub v notPresentPhrase = false →
          classifyVerdict v = VerdictLabel.Present)
      ∧ (containsSub v presentPhrase = false → containsSub v notPresentPhrase = false →
          classifyVerdict v = VerdictLabel.Error)
      ∧ (classifyVerdict v = VerdictLabel.Present ∨ classifyVerdict v = VerdictLabel.NotPresent
          ∨ classifyVerdict v = VerdictLabel.Error))
    ∧ (∀ raw : List Char, searchVerdict (stripTags raw) = none →
        classifyVerdict (normalizeResponse raw).1 = VerdictLabel.Error) := by
  constructor
  · intro v
    refine ⟨?_, ?_, ?_, ?_⟩
    · intro h
      rw [classifyVerdict, if_pos h]
    · intro hp hn
      rw [classifyVerdict, if_neg (by simp [hn]), if_pos hp]
    · intro hp hn
      rw [classifyVerdict, if_neg (by simp [hn]), if_neg (by simp [hp])]
    · rw [classifyVerdict]
      split_ifs
      · exact Or.inr (Or.inl rfl)
      · exact Or.inl rfl
      · exact Or.inr (Or.inr rfl)
  · intro raw h
    have h1 : (normalizeResponse raw).1 = sentinelVerdict := by
      rw [normalizeResponse, extractVerdictLine, h]
    rw [h1]
    decide

/-- Witness for claim C2 at concrete verdict texts. -/
theorem claim2_classification_witness :
    classifyVerdict ("[VERDICT: Gall Disease Not Present] [CONFIDENCE: 9%]".toList)
        = VerdictLabel.NotPresent
      ∧ classifyVerdict ("[VERDICT: Gall Disease Present] [CONFIDENCE: 80%]".toList)
        = VerdictLabel.Present
      ∧ classifyVerdict ("[VERDICT: Unclear] [CONFIDENCE: 5%]".toList) = VerdictLabel.Error
      ∧ classifyVerdict (normalizeResponse ("No clear marker found.".toList)).1
        = VerdictLabel.Error :=
  ⟨(claim2_classification.1 _).1 (by decide),
    (claim2_classification.1 _).2.1 (by decide) (by decide),
    (claim2_classification.1 _).2.2.1 (by decide) (by decide),
    claim2_classification.2 _ (by decide)⟩

/-- Claim C3, confirmed (spec-modelled confidence parsing): the parsed
confidence always lies in [0,100] (it is a natural number clamped above
by 100), 150 clamps to 100, the malformed -5 defaults to 0, and an
absent marker defaults to 0. -/
theorem claim3_confidence_clamping :
    (∀ l : List Char, parseConfidence l ≤ 100)
      ∧ parseConfidence ("[VERDICT: Gall Disease Present] [CONFIDENCE: 150%]".toList) = 100
      ∧ parseConfidence ("[VERDICT: Gall Disease Present] [CONFIDENCE: -5%]".toList) = 0
      ∧ parseConfidence ("no verdict line at all".toList) = 0 := by
  refine ⟨?_, by decide, by decide, by decide⟩
  intro l
  unfold parseConfidence
  split
  · decide
  · split_ifs
    · decide
    · decide
    · exact Nat.min_le_right _ _
    · decide

/-- Claim C4, corrected. When the tag-stripped text contains no
verdict-grammar match, the verdict line is the canonical error sentinel
(label Error, confidence 0) and the verdict-removal step carries the
tag-stripped text forward unchanged into the cleanup steps; the body is
that text fed through the numbered-marker removal, filler-header
removal, heading promotion and whitespace normalization (each with its
trailing strip). (The original claim asserted the body EQUALS the
tag-stripped text; the counterexample refutes that, since those later
cleanup steps can alter the text.) -/
theorem claim4_no_verdict_fallback (raw : List Char)
    (h : searchVerdict (stripTags raw) = none) :
    (normalizeResponse raw).1 = sentinelVerdict
      ∧ subVerdict (stripTags raw) = stripTags raw
      ∧ (normalizeResponse raw).2 = cleanSteps (stripTags raw)
      ∧ classifyVerdict (normalizeResponse raw).1 = VerdictLabel.Error
      ∧ parseConfidence (normalizeResponse raw).1 = 0 := by
  have h1 : (normalizeResponse raw).1 = sentinelVerdict := by
    rw [normalizeResponse, extractVerdictLine, h]
  have h2 := subVerdict_id _ h
  refine ⟨h1, h2, ?_, ?_, ?_⟩
  · rw [normalizeResponse, h2]
  · rw [h1]
    decide
  · rw [h1]
    decide

/-- Witness for claim C4 at the end-to-end scenario input of the spec;
on this input the cleanup steps change nothing, so the body is the
text itself. -/
theorem claim4_no_verdict_fallback_witness :
    searchVerdict (stripTags ("No clear marker found.".toList)) = none
      ∧ ((normalizeResponse ("No clear marker found.".toList)).1 = sentinelVerdict
        ∧ subVerdict (stripTags ("No clear marker found.".toList))
          = stripTags ("No clear marker found.".toList)
        ∧ (normalizeResponse ("No clear marker found.".toList)).2
          = cleanSteps (stripTags ("No clear marker found.".toList))
        ∧ classifyVerdict (normalizeResponse ("No clear marker found.".toList)).1
          = VerdictLabel.Error
        ∧ parseConfidence (normalizeResponse ("No clear marker found.".toList)).1 = 0) :=
  ⟨by decide, claim4_no_verdict_fallback ("No clear marker found.".toList) (by decide)⟩

/-- Counterexample to claim C4 as stated: a text with no verdict match
whose body after normalization differs from the tag-stripped text,
because the newline-collapsing step rewrites the newline run. -/
theorem claim4_fallback_counterexample :
    searchVerdict (stripTags ("A\n\n\n\nB".toList)) = none
      ∧ (normalizeResponse ("A\n\n\n\nB".toList)).2 ≠ stripTags ("A\n\n\n\nB".toList)
      ∧ (normalizeResponse ("A\n\n\n\nB".toList)).2 = "A\n\nB".toList := by
  refine ⟨by decide, by decide, by decide⟩

/-- Claim C5, confirmed: the tag-stripping step deletes disjoint
substrings each matching the HTML-tag pattern (so the surrounding
non-tag text is preserved in order), and its output contains no
substring matching the tag pattern. -/
theorem claim5_tag_stripping (l : List Char) :
    TagDeleted l (stripTags l) ∧ hasTag (stripTags l) = false :=
  stripTagsF_spec l.length l le_rfl

/-- Claim C6, corrected. The whitespace-normalization step is
newline-run collapsing followed by a trim: collapsing preserves every
non-newline character in order and leaves every maximal newline run at
length exactly two — one blank line. (The original claim said single
newlines are left unchanged; the counterexample refutes that, since
the source replaces every newline run, including a lone newline, by
exactly two newlines.) -/
theorem claim6_whitespace_semantics (l : List Char) :
    step142 l = pyStrip (collapse142 l)
      ∧ (collapse142 l).filter (fun c => decide (c ≠ '\n'))
        = l.filter (fun c => decide (c ≠ '\n'))
      ∧ nlRunsTwo (collapse142 l) = true :=
  ⟨rfl, collapse142F_filter l.length l le_rfl, collapse142F_runs l.length l le_rfl⟩

/-- Counterexample to claim C6 as stated: a single newline is not left
unchanged; it is doubled into a blank line. -/
theorem claim6_whitespace_counterexample :
    step142 ("a\nb".toList) ≠ "a\nb".toList
      ∧ step142 ("a\nb".toList) = "a\n\nb".toList := by
  refine ⟨by decide, by decide⟩

/-- Claim C7, confirmed: the whitespace-normalization step (newline
collapsing followed by trimming) is idempotent. -/
theorem claim7_whitespace_idempotent (l : List Char) :
    step142 (step142 l) = step142 l := by
  have h1 : nlRunsTwo (collapse142 l) = true := collapse142F_runs l.length l le_rfl
  have h2 : nlRunsTwo (step142 l) = true := nlRunsTwo_pyStrip _ h1
  show pyStrip (collapse142 (step142 l)) = step142 l
  rw [collapse142, collapse142F_id (step142 l).length _ le_rfl h2]
  exact pyStrip_idem (collapse142 l)

/-- Claim C8, confirmed: with the service configured, whenever every
uploaded file is empty-named or fails to decode (including the case of
no files at all), the handler redirects to the upload page and the
inference collaborator is never invoked. -/
theorem claim8_no_usable_input (resize : Nat → Nat → Nat × Nat)
    (files : List UpFile) (infer : List ContentItem → InferResult)
    (h : ∀ f ∈ files, f.filename = [] ∨ f.decoded = none) :
    analyze_tuber true resize files infer = (Outcome.toIndex, false) := by
  by_cases hemp : files.isEmpty = true
  · rw [analyze_tuber, if_neg (by decide), if_pos hemp]
  · rw [analyze_tuber, if_neg (by decide), if_neg hemp,
      buildContent_all_skipped resize files h]
    simp

/-- Witness for claim C8: one empty-named file and one file that fails
to decode; the handler redirects to the upload page without invoking
inference. -/
theorem claim8_no_usable_input_witness :
    (∀ f ∈ [UpFile.mk [] (some (PILImage.mk 10 10 PMode.RGB)),
        UpFile.mk ("a.png".toList) none], f.filename = [] ∨ f.decoded = none)
      ∧ analyze_tuber true (fun w k => (w, k))
          [UpFile.mk [] (some (PILImage.mk 10 10 PMode.RGB)),
            UpFile.mk ("a.png".toList) none]
          (fun _ => InferResult.err []) = (Outcome.toIndex, false) :=
  ⟨by decide, claim8_no_usable_input (fun w k => (w, k)) _ _ (by decide)⟩

/-- Claim C9, corrected. optimize_image converts exactly the modes
RGBA, P and LA to RGB: every image decoded in mode RGB, RGBA, P or LA
comes out in RGB, but a single-channel grayscale (L) image — which the
claim asserted would also be converted — passes through unconverted,
as does any other mode such as CMYK. -/
theorem claim9_color_mode (resize : Nat → Nat → Nat × Nat) (img : PILImage)
    (h : img.mode = PMode.RGB ∨ img.mode = PMode.RGBA
      ∨ img.mode = PMode.P ∨ img.mode = PMode.LA) :
    (optimize_image resize img).mode = PMode.RGB := by
  have hmode : (thumbnailStep resize img).mode = img.mode := by
    rw [thumbnailStep]
    split <;> rfl
  rw [optimize_image]
  by_cases hconv : (thumbnailStep resize img).mode = PMode.RGBA
      ∨ (thumbnailStep resize img).mode = PMode.P
      ∨ (thumbnailStep resize img).mode = PMode.LA
  · rw [if_pos hconv]
  · rw [if_neg hconv, hmode]
    rcases h with h | h | h | h
    · exact h
    · exact absurd (Or.inl (hmode.trans h)) hconv
    · exact absurd (Or.inr (Or.inl (hmode.trans h))) hconv
    · exact absurd (Or.inr (Or.inr (hmode.trans h))) hconv

/-- Witness for claim C9: an oversized palette-mode image comes out in
RGB mode. -/
theorem claim9_color_mode_witness :
    ((PILImage.mk 2000 50 PMode.P).mode = PMode.RGB
        ∨ (PILImage.mk 2000 50 PMode.P).mode = PMode.RGBA
        ∨ (PILImage.mk 2000 50 PMode.P).mode = PMode.P
        ∨ (PILImage.mk 2000 50 PMode.P).mode = PMode.LA)
      ∧ (optimize_image (fun w k => (min w 1024, min k 1024))
          (PILImage.mk 2000 50 PMode.P)).mode = PMode.RGB :=
  ⟨by decide, claim9_color_mode (fun w k => (min w 1024, min k 1024))
    (PILImage.mk 2000 50 PMode.P) (by decide)⟩

/-- Counterexample to claim C9 as stated: a grayscale (L) image is a
non-3-channel encoding, yet optimize_image returns it still in mode L,
not RGB. -/
theorem claim9_color_counterexample :
    (optimize_image (fun w k => (w, k)) (PILImage.mk 100 100 PMode.L)).mode = PMode.L
      ∧ PMode.L ≠ PMode.RGB := by
  refine ⟨by decide, by decide⟩

/-- Claim C10, confirmed: the results route pops the stored result, so
after any request the session is empty; a stored value is rendered at
most once, and a request with nothing stored renders the fixed default
message, whose verdict prefix is the Error sentinel. -/
theorem claim10_display_once (v : List Char) :
    results (some v) = (v, none)
      ∧ results none = (defaultResultMsg, none)
      ∧ (results ((results (some v)).2)).1 = defaultResultMsg
      ∧ sentinelVerdict.isPrefixOf defaultResultMsg = true :=
  ⟨rfl, rfl, rfl, by decide⟩

end TuberCheck
